import Mathlib

/-!
Verification of the carelabel / SKU label generator (`carelabel-app.py`).

Text is modelled as `List Char` (`Str`).  Python string operations
(`re.sub` with the specific patterns of `REPLACEMENTS`, `str.upper`,
`str.lower`, `str.split`, `str.strip`, `str.splitlines`) are embedded
character by character.  Case mapping is modelled for the ASCII and
Latin-1 ranges, which cover the alphabet accepted by the composition
parser's character class; floating-point percentages are modelled as
exact rationals.
-/

namespace Carelabel

abbrev Str := List Char

/-- Python `\s` (ASCII range): space, tab, newline, carriage return,
vertical tab, form feed. -/
def isPySpace (c : Char) : Bool :=
  c == ' ' || c == '\t' || c == '\n' || c == '\r' ||
    c == Char.ofNat 0x0b || c == Char.ofNat 0x0c

/-- Word characters for Python's `\b`: ASCII alphanumerics, underscore,
and the Latin-1 letters (everything in `0xC0`-`0xFF` except `×` and `÷`). -/
def isWordChar (c : Char) : Bool :=
  c.isAlphanum || c == '_' ||
    (0xC0 ≤ c.toNat && c.toNat ≤ 0xFF && c.toNat ≠ 0xD7 && c.toNat ≠ 0xF7)

/-- ASCII lower-casing of a single character (the replacement patterns are
all-ASCII, so `re.IGNORECASE` only ever folds ASCII letters). -/
def asciiLowerChar (c : Char) : Char :=
  if 'A' ≤ c ∧ c ≤ 'Z' then Char.ofNat (c.toNat + 32) else c

/-- Python `str.lower` on one character, for the ASCII and Latin-1 letters
(the only characters the pipeline feeds to `lower`). -/
def pyLowerChar (c : Char) : Char :=
  if 'A' ≤ c ∧ c ≤ 'Z' then Char.ofNat (c.toNat + 32)
  else if 0xC0 ≤ c.toNat ∧ c.toNat ≤ 0xDE ∧ c.toNat ≠ 0xD7 then
    Char.ofNat (c.toNat + 32)
  else c

def pyLower (s : Str) : Str := s.map pyLowerChar

/-- Python `str.upper` on one character for ASCII / Latin-1: `ß` expands
to `"SS"`, `ÿ` maps to `Ÿ` (`0x178`), other Latin-1 lowercase letters
shift down by 32. -/
def pyUpperChar (c : Char) : Str :=
  if 'a' ≤ c ∧ c ≤ 'z' then [Char.ofNat (c.toNat - 32)]
  else if c.toNat = 0xDF then ['S', 'S']
  else if c.toNat = 0xFF then [Char.ofNat 0x178]
  else if 0xE0 ≤ c.toNat ∧ c.toNat ≤ 0xFE ∧ c.toNat ≠ 0xF7 then
    [Char.ofNat (c.toNat - 32)]
  else [c]

def pyUpper (s : Str) : Str := s.flatMap pyUpperChar

/-- Python `str.strip()`: drop leading and trailing whitespace. -/
def pyStrip (s : Str) : Str :=
  ((s.dropWhile isPySpace).reverse.dropWhile isPySpace).reverse

/-! ### A small regex engine

`REPLACEMENTS` in the source uses only: literal characters (matched
case-insensitively), `\s*`, an optional single character (`\(?`, `\)?`)
and the word boundary `\b`.  `RTok` covers exactly these; `matchToks`
implements Python's backtracking order (greedy `\s*` and `?`, longest
first). -/

inductive RTok where
  | lit (c : Char)
  | ws
  | opt (c : Char)
  | wb
deriving DecidableEq

/-- `\b` holds when exactly one of the neighbouring characters is a word
character (`prev` is the character before the current position, if any). -/
def wordBoundary (prev : Option Char) (s : Str) : Bool :=
  let l := match prev with | some c => isWordChar c | none => false
  let r := match s with | c :: _ => isWordChar c | [] => false
  l != r

/-- Greedy `\s*`: consume as much whitespace as possible, then run the
continuation `k`, backtracking one whitespace character at a time when
the continuation fails (Python's backtracking order). -/
def matchWs (k : Option Char → Str → Option Str) (prev : Option Char) (s : Str) :
    Option Str :=
  match s with
  | [] => k prev []
  | x :: s' =>
      if isPySpace x then
        match matchWs k (some x) s' with
        | some r => some r
        | none => k prev (x :: s')
      else k prev (x :: s')

/-- Match a token list at the start of `s`, returning the remaining
suffix on success.  `prev` is the character preceding the match position
(for word boundaries).  Alternatives are tried in Python's order:
literals are case-insensitive, `opt` and `ws` are greedy. -/
def matchToks : List RTok → Option Char → Str → Option Str
  | [], _, s => some s
  | .lit _ :: _, _, [] => none
  | .lit c :: ts', _, x :: s' =>
      if asciiLowerChar x = c then matchToks ts' (some x) s' else none
  | .opt _ :: ts', prev, [] => matchToks ts' prev []
  | .opt c :: ts', prev, x :: s' =>
      if x = c then
        match matchToks ts' (some x) s' with
        | some r => some r
        | none => matchToks ts' prev (x :: s')
      else matchToks ts' prev (x :: s')
  | .wb :: ts', prev, s =>
      if wordBoundary prev s then matchToks ts' prev s else none
  | .ws :: ts', prev, s => matchWs (fun p t => matchToks ts' p t) prev s

/-- Python `re.sub(pattern, repl, s)`: replace every non-overlapping match,
scanning left to right; scanning resumes after the matched portion of the
original string.  Recursion is driven by a fuel counter initialised to the
string length; since every step consumes at least one character of fuel and
at least one character of input, the `0, _ :: _` branch is unreachable.
(None of the patterns used here can match the empty string; if one did,
the replacement would be emitted and scanning would advance one character,
as in Python.) -/
def reSubGo (pat : List RTok) (repl : Str) : Nat → Option Char → Str → Str
  | _, _, [] => []
  | 0, _, s => s
  | fuel + 1, prev, x :: rest =>
    match matchToks pat prev (x :: rest) with
    | some r =>
        let k := (x :: rest).length - r.length
        if k = 0 then repl ++ x :: reSubGo pat repl fuel (some x) rest
        else repl ++ reSubGo pat repl fuel ((List.take k (x :: rest)).getLast?) r
    | none => x :: reSubGo pat repl fuel (some x) rest

def reSub (pat : List RTok) (repl : Str) (s : Str) : Str :=
  reSubGo pat repl s.length none s

/-- Literal tokens for an (all-lowercase, ASCII) pattern fragment. -/
def lits (s : String) : List RTok := s.data.map RTok.lit

/-- The ordered substitution table of the source (`REPLACEMENTS`), with each
regular expression translated to `RTok` form. -/
def REPLACEMENTS : List (List RTok × Str) :=
  [ (lits "polyvinyl chloride" ++ [.ws, .opt '('] ++ [.ws] ++ lits "pvc" ++ [.ws, .opt ')'],
      "POLICLORETO DE VINILA (PVC)".data),
    ([.wb] ++ lits "pvc" ++ [.wb], "POLICLORETO DE VINILA (PVC)".data),
    (lits "polyurethane", "POLIURETANO (PU)".data),
    ([.wb] ++ lits "pu" ++ [.wb], "POLIURETANO (PU)".data),
    (lits "polyester", "POLIÉSTER".data),
    (lits "polyamide", "POLIAMIDA".data),
    (lits "nylon", "POLIAMIDA".data),
    (lits "cotton", "ALGODÃO".data),
    (lits "filler", "ENCHIMENTO".data),
    (lits "base fabric", "TECIDO BASE".data),
    (lits "leather", "COURO".data),
    (lits "metal", "METAL".data) ]

/-- `basic_translate_freeform`: apply every replacement rule in order
(case-insensitively), then uppercase the result. -/
def basic_translate_freeform (text : Str) : Str :=
  if text = [] then []
  else pyUpper (REPLACEMENTS.foldl (fun acc pr => reSub pr.1 pr.2 acc) text)

/-! ### Composition parser

Embedding of `parse_components_for_normalization`.  The scan pattern
`(\d+(?:\.\d+)?)\s*%\s*([A-Za-zÀ-ÖØ-öø-ÿ ()/\-]+?)(?=(\d+(?:\.\d+)?\s*%|$))`
is implemented as an explicit scanner.  Greedy sub-patterns whose
backtracking can never succeed with a shorter match (`\d+`, `(\.\d+)?`
and the `\s*` before `%`: giving back a character always leaves a
digit, dot or whitespace character where `%` or `.` is required) are
maximal-munch; the `\s*` after `%` genuinely backtracks against the
lazy description group (whose character class contains the space), and
is implemented longest-first as in Python. -/

def natOfDigits (ds : Str) : ℕ :=
  ds.foldl (fun a c => 10 * a + (c.toNat - '0'.toNat)) 0

/-- Exact value of the decimal numeral `intDs [. fracDs]` (Python parses it
with `float`; the model keeps it exact as a rational). -/
def numValue (intDs fracDs : Str) : ℚ :=
  (natOfDigits intDs : ℚ) + (natOfDigits fracDs : ℚ) / (10 : ℚ) ^ fracDs.length

/-- `\d+(?:\.\d+)?`: returns (integer digits, fractional digits, rest). -/
def scanNumber (s : Str) : Option (Str × Str × Str) :=
  let ds := s.takeWhile Char.isDigit
  if ds = [] then none
  else
    let after := s.dropWhile Char.isDigit
    match after with
    | '.' :: t =>
        let fs := t.takeWhile Char.isDigit
        if fs = [] then some (ds, [], after)
        else some (ds, fs, t.dropWhile Char.isDigit)
    | _ => some (ds, [], after)

/-- The lookahead `(?=(\d+(?:\.\d+)?\s*%|$))`.  (`$` is plain end of string:
by this point newlines have been replaced by spaces.) -/
def lookaheadOk (s : Str) : Bool :=
  match s with
  | [] => true
  | _ =>
    match scanNumber s with
    | some (_, _, rest) =>
        match rest.dropWhile isPySpace with
        | '%' :: _ => true
        | _ => false
    | none => false

/-- The character class `[A-Za-zÀ-ÖØ-öø-ÿ ()/\-]`. -/
def isDescChar (c : Char) : Bool :=
  c.isAlpha || (0xC0 ≤ c.toNat && c.toNat ≤ 0xD6) ||
    (0xD8 ≤ c.toNat && c.toNat ≤ 0xF6) || (0xF8 ≤ c.toNat && c.toNat ≤ 0xFF) ||
    c == ' ' || c == '(' || c == ')' || c == '/' || c == '-'

/-- The lazy group `([class]+?)` followed by the lookahead: the shortest
non-empty run of class characters after which the lookahead holds. -/
def lazyDesc : Str → Option (Str × Str)
  | [] => none
  | c :: r =>
    if isDescChar c then
      if lookaheadOk r then some ([c], r)
      else
        match lazyDesc r with
        | some (d, rem) => some (c :: d, rem)
        | none => none
    else none

/-- Backtracking for the greedy `\s*` between `%` and the description
group: try the description at offset `k` (whitespace consumed), longest
whitespace run first. -/
def tryWsDesc (t : Str) : Nat → Option (Str × Str)
  | 0 => lazyDesc t
  | k + 1 =>
    match lazyDesc (t.drop (k + 1)) with
    | some res => some res
    | none => tryWsDesc t k

/-- One attempted match of the component pattern at the start of `s`:
returns (percentage, raw description group, rest of string). -/
def matchComponent (s : Str) : Option (ℚ × Str × Str) :=
  match scanNumber s with
  | none => none
  | some (ds, fs, afterNum) =>
    match afterNum.dropWhile isPySpace with
    | '%' :: t =>
        match tryWsDesc t (t.takeWhile isPySpace).length with
        | some (d, rem) => some (numValue ds fs, d, rem)
        | none => none
    | _ => none

/-- `finditer`: non-overlapping matches, leftmost first; a failed attempt
advances one character.  Fuel is initialised to the string length; a match
always consumes at least three characters, so the fuel never runs out and
the length guard always holds. -/
def scanGo : Nat → Str → List (ℚ × Str)
  | _, [] => []
  | 0, _ => []
  | fuel + 1, c :: rest =>
    match matchComponent (c :: rest) with
    | some (pct, d, r) =>
        if r.length < rest.length + 1 then (pct, pyStrip d) :: scanGo fuel r
        else (pct, pyStrip d) :: scanGo fuel rest
    | none => scanGo fuel rest

def parse_components_for_normalization (text : Str) : List (ℚ × Str) :=
  if text = [] then []
  else
    let cleaned := text.map (fun c => if c = '\n' then ' ' else c)
    let cleaned2 := reSub [RTok.lit '%', RTok.ws] "% ".data cleaned
    scanGo cleaned2.length cleaned2

/-! ### Composition normalizer -/

/-- Python's substring test `needle in hay`. -/
def strContains : Str → Str → Bool
  | hay, needle =>
    if needle.isPrefixOf hay then true
    else
      match hay with
      | [] => false
      | _ :: t => strContains t needle

/-- The non-principal filter of `normalize_and_translate_composition`:
a component is dropped when its lower-cased description contains one of
the four marker substrings. -/
def isNonPrincipal (desc : Str) : Bool :=
  let d := pyLower desc
  strContains d "filler".data || strContains d "base fabric".data ||
    strContains d "enchimento".data || strContains d "tecido base".data

/-- Stable insertion sort.  Python's `sorted` is a stable sort, and a stable
sort's output is uniquely determined by the comparison and the input order;
`sorted(..., key=k)` (resp. with `reverse=True`) is modelled as
`pySorted (fun i j => k i ≤ k j)` (resp. `k j ≤ k i`). -/
def stableInsert (le : α → α → Bool) (a : α) : List α → List α
  | [] => [a]
  | b :: l => if le b a then b :: stableInsert le a l else a :: b :: l

def pySorted (le : α → α → Bool) (l : List α) : List α :=
  l.foldl (fun acc a => stableInsert le a acc) []

/-- `int_parts[i] += delta` for each `i` in `idxs` (Python list update;
all indices produced by the normalizer are in range). -/
def incrList (l : List ℤ) (idxs : List ℕ) (delta : ℤ) : List ℤ :=
  idxs.foldl (fun acc i => acc.set i (acc.getD i 0 + delta)) l

/-- Line 115: `int_parts = [math.floor(f) for f in floats]`. -/
def lrFloor (floats : List ℚ) : List ℤ := floats.map (fun f => ⌊f⌋)

/-- Line 116: `fracs = [f - i for f, i in zip(floats, int_parts)]`. -/
def lrFracs (floats : List ℚ) : List ℚ :=
  List.zipWith (fun f i => f - (i : ℚ)) floats (lrFloor floats)

/-- Line 118: `diff = 100 - sum(int_parts)`. -/
def lrDiff (floats : List ℚ) : ℤ := 100 - (lrFloor floats).sum

/-- The rescaling core of `normalize_and_translate_composition`
(lines 114-127): floor the exact shares, then adjust by the
difference from 100 over the indices sorted (stably) by fractional
remainder — descending for a shortfall, ascending for an excess. -/
def lrAdjust (floats : List ℚ) : List ℤ :=
  if 0 < lrDiff floats then
    incrList (lrFloor floats)
      ((pySorted (fun i j => decide ((lrFracs floats).getD j 0 ≤ (lrFracs floats).getD i 0))
          (List.range floats.length)).take (lrDiff floats).toNat) 1
  else if lrDiff floats < 0 then
    incrList (lrFloor floats)
      ((pySorted (fun i j => decide ((lrFracs floats).getD i 0 ≤ (lrFracs floats).getD j 0))
          (List.range floats.length)).take (-lrDiff floats).toNat) (-1)
  else lrFloor floats

/-- The strict "comes before" relation realised by a stable sort on
distinct indices with key `f`: strictly smaller key, or equal key and
smaller original index. -/
def lexR (f : ℕ → ℚ) (i j : ℕ) : Prop := f i < f j ∨ (f i = f j ∧ i < j)

instance lexR.instDecidable (f : ℕ → ℚ) (i j : ℕ) : Decidable (lexR f i j) := by
  unfold lexR
  exact inferInstance

/-- Modelled from the spec's description of the largest-remainder rule:
the number of components that strictly precede component `i` in the
"largest fractional remainder first, ties broken by original order"
ranking. -/
def lrRankDesc (n : ℕ) (fracs : List ℚ) (i : ℕ) : ℕ :=
  ((List.range n).filter (fun j =>
    decide (fracs.getD i 0 < fracs.getD j 0 ∨
      (fracs.getD j 0 = fracs.getD i 0 ∧ j < i)))).length

/-- Modelled from the spec's description of the largest-remainder rule:
the number of components that strictly precede component `i` in the
"smallest fractional remainder first, ties broken by original order"
ranking. -/
def lrRankAsc (n : ℕ) (fracs : List ℚ) (i : ℕ) : ℕ :=
  ((List.range n).filter (fun j =>
    decide (fracs.getD j 0 < fracs.getD i 0 ∨
      (fracs.getD j 0 = fracs.getD i 0 ∧ j < i)))).length

/-- The spec's statement of the largest-remainder method (§4.3 step 4):
every component gets the floor of its exact share; if the floors sum
below 100 the missing units go, one each, to the components with the
largest fractional remainders (ties by original order); if above 100,
units are removed from the components with the smallest fractional
remainders. -/
def largestRemainderSpec (floats : List ℚ) : List ℤ :=
  (List.range floats.length).map (fun i =>
    if 0 < lrDiff floats then
      (lrFloor floats).getD i 0 +
        (if lrRankDesc floats.length (lrFracs floats) i < (lrDiff floats).toNat then 1 else 0)
    else if lrDiff floats < 0 then
      (lrFloor floats).getD i 0 +
        (if lrRankAsc floats.length (lrFracs floats) i < (-lrDiff floats).toNat then -1 else 0)
    else (lrFloor floats).getD i 0)

/-- Decimal rendering of an integer (Python f-string `{pct_int}`). -/
def intStr (v : ℤ) : Str := (Int.repr v).data

/-- `" ".join` of the `"N% MATERIAL"` parts. -/
def renderParts (mains : List (ℚ × Str)) (pcts : List ℤ) : Str :=
  List.intercalate " ".data
    (List.zipWith (fun c v => intStr v ++ "% ".data ++ basic_translate_freeform c.2)
      mains pcts)

/-- The retained (principal) components of a composition string. -/
def mainsOf (text : Str) : List (ℚ × Str) :=
  (parse_components_for_normalization text).filter (fun c => !(isNonPrincipal c.2))

/-- Sum of the retained raw percentages. -/
def mainTotal (text : Str) : ℚ := ((mainsOf text).map Prod.fst).sum

/-- The integer percentages the normalizer assigns to the retained
components (meaningful on the non-fallback path). -/
def normalizedPcts (text : Str) : List ℤ :=
  lrAdjust ((mainsOf text).map (fun c => c.1 * 100 / mainTotal text))

def normalize_and_translate_composition (text : Str) : Str :=
  if text = [] then []
  else if parse_components_for_normalization text = [] then
    basic_translate_freeform text
  else if mainsOf text = [] then basic_translate_freeform text
  else if mainTotal text ≤ 0 then basic_translate_freeform text
  else renderParts (mainsOf text) (normalizedPcts text)

/-! ### Word wrapping -/

/-- Helper for Python `str.split()` (split on whitespace runs, dropping
empty pieces), processed right to left: returns the word list of `s`
together with whether `s` starts with a non-whitespace character. -/
def splitAux : Str → List Str × Bool
  | [] => ([], false)
  | c :: t =>
    let p := splitAux t
    if isPySpace c then (p.1, false)
    else
      match p.2, p.1 with
      | true, w :: ws => ((c :: w) :: ws, true)
      | _, _ => ([c] :: p.1, true)

/-- Python `str.split()`. -/
def pySplit (s : Str) : List Str := (splitAux s).1

/-- The loop of `wrap_line`: `current` is the accumulator line; a word is
appended when the candidate line fits, otherwise the accumulator is
flushed.  `sw` is the glyph-width oracle (`stringWidth` with the font
name and size closed over). -/
def wrapAux (sw : Str → ℚ) (maxw : ℚ) : List Str → Str → List Str
  | [], current => if current = [] then [] else [current]
  | w :: ws, current =>
    if current = [] then wrapAux sw maxw ws w
    else
      let candidate := current ++ ' ' :: w
      if sw candidate ≤ maxw then wrapAux sw maxw ws candidate
      else current :: wrapAux sw maxw ws w

def wrap_line (sw : Str → ℚ) (maxw : ℚ) (text : Str) : List Str :=
  if text = [] then [[]]
  else wrapAux sw maxw (pySplit text) []

/-- Python `str.splitlines()` for `\n`, `\r` and `\r\n` (the only line
breaks the pipeline produces): no entry for a trailing terminator. -/
def pySplitlines : Str → List Str
  | [] => []
  | [c] => if c = '\r' ∨ c = '\n' then [[]] else [[c]]
  | c :: d :: t =>
    if c = '\r' then
      if d = '\n' then [] :: pySplitlines t
      else [] :: pySplitlines (d :: t)
    else if c = '\n' then [] :: pySplitlines (d :: t)
    else
      match pySplitlines (d :: t) with
      | [] => [[c]]
      | w :: ls => (c :: w) :: ls

/-! ### Carelabel layout (`create_carelabel_pdf`)

Physical geometry in points, exact: `mm = 72 / 25.4 = 360/127`.
Image assets are modelled by their pixel sizes (`Option (ℚ × ℚ)`;
`none` when the file does not exist). -/

def mmQ : ℚ := 360 / 127

def labelWidth : ℚ := 30 * mmQ
def labelHeight : ℚ := 80 * mmQ
def inner_margin_x : ℚ := 3 * mmQ
def stitch_margin_mm : ℚ := 7
def safe_top_y : ℚ := labelHeight - stitch_margin_mm * mmQ
def safe_bottom_y : ℚ := stitch_margin_mm * mmQ
def top_band_mm : ℚ := 10
def icons_band_mm : ℚ := 6
def logo_max_height : ℚ := (top_band_mm - 2) * mmQ
def logo_max_width : ℚ := labelWidth - 2 * inner_margin_x
def icons_max_height : ℚ := (icons_band_mm - 2) * mmQ
def icons_max_width : ℚ := labelWidth - 2 * inner_margin_x
def leading : ℚ := 5
def max_text_width : ℚ := labelWidth - 2 * inner_margin_x

inductive Brand where
  | Arezzo | Anacapri | Schutz | Reserva
deriving DecidableEq

/-- A drawn image rectangle: size and lower-left corner. -/
structure DrawRect where
  w : ℚ
  h : ℚ
  x : ℚ
  y : ℚ
deriving DecidableEq

/-- Logo placement for a brand whose logo asset has pixel size `iw × ih`:
scale to fit the band, the Reserva override magnifies by 1.5 and re-clamps
to the band width, and the result is centered horizontally under the top
safety line. -/
def logoGeometry (brand : Brand) (iw ih : ℚ) : DrawRect :=
  let scale := min (logo_max_width / iw) (logo_max_height / ih)
  let draw_w := iw * scale
  let draw_h := ih * scale
  let wh :=
    if brand = Brand.Reserva then
      let dw := draw_w * (3 / 2)
      let dh := draw_h * (3 / 2)
      if logo_max_width < dw then
        let factor := logo_max_width / dw
        (dw * factor, dh * factor)
      else (dw, dh)
    else (draw_w, draw_h)
  { w := wh.1, h := wh.2,
    x := (labelWidth - wh.1) / 2,
    y := safe_top_y - 1 * mmQ - wh.2 }

/-- Icon strip placement (pixel size `iw × ih`), anchored just above the
bottom safety line. -/
def iconsGeometry (iw ih : ℚ) : DrawRect :=
  let scale_i := min (icons_max_width / iw) (icons_max_height / ih)
  let draw_w_i := iw * scale_i
  let draw_h_i := ih * scale_i
  { w := draw_w_i, h := draw_h_i,
    x := (labelWidth - draw_w_i) / 2,
    y := safe_bottom_y + 1 * mmQ }

/-- Top limit of the text band (below the logo if drawn, otherwise the
reserved logo band). -/
def textTopLimit (brand : Brand) (logo : Option (ℚ × ℚ)) : ℚ :=
  match logo with
  | some (iw, ih) => (logoGeometry brand iw ih).y - 2 * mmQ
  | none => safe_top_y - top_band_mm * mmQ

/-- Bottom limit of the text band (above the icon strip if drawn,
otherwise the reserved icon band). -/
def textBottomLimit (icons : Option (ℚ × ℚ)) : ℚ :=
  match icons with
  | some (iw, ih) =>
      let r := iconsGeometry iw ih
      r.y + r.h + 2 * mmQ
  | none => safe_bottom_y + icons_band_mm * mmQ

/-- The wrapped body lines (lines 281-286): blank source lines contribute
one empty sub-line, other lines are word-wrapped. -/
def wrappedLinesFor (sw : Str → ℚ) (maxw : ℚ) (full : Str) : List Str :=
  (pySplitlines full).flatMap fun line =>
    if pyStrip line = [] then [[]] else wrap_line sw maxw line

/-- First baseline position (lines 288-301): center the block vertically
when it fits, otherwise anchor at the top of the band. -/
def yStart (topL bottomL : ℚ) (nLines : ℕ) : ℚ :=
  let n_lines := if nLines = 0 then 1 else nLines
  let text_height : ℚ := ((n_lines - 1 : ℕ) : ℚ) * leading
  let available_height := topL - bottomL
  if available_height ≤ 0 then topL
  else if available_height ≤ text_height then topL
  else topL - (available_height - text_height) / 2

/-- The emission loop (lines 308-311): place a line at the current
baseline unless the baseline has reached the bottom limit, in which case
stop and drop the rest; each placed line advances the baseline down by
the leading. -/
def emitLines (bottom lead : ℚ) : List Str → ℚ → List (Str × ℚ)
  | [], _ => []
  | l :: ls, y => if y ≤ bottom then [] else (l, y) :: emitLines bottom lead ls (y - lead)

/-- The text lines of one rendered carelabel, with their baselines. -/
def carelabelEmitted (brand : Brand) (logo icons : Option (ℚ × ℚ))
    (sw : Str → ℚ) (full : Str) : List (Str × ℚ) :=
  let wrapped := wrappedLinesFor sw max_text_width full
  let topL := textTopLimit brand logo
  let bottomL := textBottomLimit icons
  emitLines bottomL leading wrapped (yStart topL bottomL wrapped.length)

/-! ### SKU labels (`create_sku_labels_pdf`) -/

/-- The pages of the SKU PDF: one page per entry that is non-blank after
stripping, in order; blank entries are skipped (`continue`) and produce
no page. -/
def skuPages : List Str → List Str
  | [] => []
  | s :: rest =>
    let t := pyStrip s
    if t = [] then skuPages rest else t :: skuPages rest

/-! ### General lemmas -/

theorem emitLines_mem_gt (bottom lead : ℚ) :
    ∀ (ls : List Str) (y : ℚ) (p : Str × ℚ), p ∈ emitLines bottom lead ls y → bottom < p.2
  | [], _, p, hp => by simp [emitLines] at hp
  | l :: ls, y, p, hp => by
    rw [emitLines] at hp
    split at hp
    · simp at hp
    · rcases List.mem_cons.1 hp with h | h
      · subst h; simpa using lt_of_not_ge (by assumption)
      · exact emitLines_mem_gt bottom lead ls (y - lead) p h

theorem emitLines_isPrefix (bottom lead : ℚ) :
    ∀ (ls : List Str) (y : ℚ), (emitLines bottom lead ls y).map Prod.fst <+: ls
  | [], _ => by simp [emitLines]
  | l :: ls, y => by
    rw [emitLines]
    split
    · simp
    · simpa [List.cons_prefix_cons] using emitLines_isPrefix bottom lead ls (y - lead)

theorem emitLines_stop (bottom lead : ℚ) :
    ∀ (ls : List Str) (y : ℚ), (emitLines bottom lead ls y).length < ls.length →
      y - lead * (emitLines bottom lead ls y).length ≤ bottom
  | [], _, h => by simp [emitLines] at h
  | l :: ls, y, h => by
    by_cases hy : y ≤ bottom
    · rw [emitLines, if_pos hy]
      simpa using hy
    · rw [emitLines, if_neg hy] at h ⊢
      simp only [List.length_cons] at h ⊢
      have h' := emitLines_stop bottom lead ls (y - lead) (by omega)
      push_cast
      linarith

/-! ### Stable sort and apportionment lemmas -/

theorem lexR_asymm {f : ℕ → ℚ} {i j : ℕ} (h : lexR f i j) : ¬ lexR f j i := by
  intro h'
  rcases h with h | ⟨he, hi⟩
  · rcases h' with h' | ⟨he', hj⟩
    · linarith
    · linarith
  · rcases h' with h' | ⟨he', hj⟩
    · linarith
    · omega

theorem stableInsert_mem (le : ℕ → ℕ → Bool) (a b : ℕ) :
    ∀ l : List ℕ, b ∈ stableInsert le a l ↔ b = a ∨ b ∈ l
  | [] => by simp [stableInsert]
  | c :: l => by
    rw [stableInsert]
    split_ifs with h
    · rw [List.mem_cons, stableInsert_mem le a b l, List.mem_cons]
      tauto
    · simp only [List.mem_cons]

theorem stableInsert_perm (le : ℕ → ℕ → Bool) (a : ℕ) :
    ∀ l : List ℕ, List.Perm (stableInsert le a l) (a :: l)
  | [] => List.Perm.refl _
  | c :: l => by
    rw [stableInsert]
    split_ifs with h
    · exact ((stableInsert_perm le a l).cons c).trans (List.Perm.swap a c l)
    · exact List.Perm.refl _

theorem foldlInsert_perm (le : ℕ → ℕ → Bool) :
    ∀ (l acc : List ℕ),
      List.Perm (l.foldl (fun acc a => stableInsert le a acc) acc) (acc ++ l)
  | [], acc => by simp
  | x :: l, acc => by
    rw [List.foldl_cons]
    refine ((foldlInsert_perm le l (stableInsert le x acc)).trans ?_)
    refine (((stableInsert_perm le x acc).append_right l).trans ?_)
    exact (List.perm_middle).symm

theorem pySorted_perm (le : ℕ → ℕ → Bool) (l : List ℕ) :
    List.Perm (pySorted le l) l := by
  simpa using foldlInsert_perm le l []

theorem stableInsert_pairwise (f : ℕ → ℚ) (a : ℕ) :
    ∀ acc : List ℕ, acc.Pairwise (lexR f) → (∀ b ∈ acc, b < a) →
      (stableInsert (fun i j => decide (f i ≤ f j)) a acc).Pairwise (lexR f)
  | [], _, _ => by simp [stableInsert]
  | c :: l, hp, hlt => by
    rw [stableInsert]
    rw [List.pairwise_cons] at hp
    split_ifs with h
    · rw [List.pairwise_cons]
      refine ⟨fun y hy => ?_,
        stableInsert_pairwise f a l hp.2 (fun b hb => hlt b (by simp [hb]))⟩
      rcases (stableInsert_mem _ a y l).1 hy with rfl | hy'
      · have hfc : f c ≤ f y := of_decide_eq_true h
        rcases lt_or_eq_of_le hfc with h1 | h1
        · exact Or.inl h1
        · exact Or.inr ⟨h1, hlt c (by simp)⟩
      · exact hp.1 y hy'
    · have hfa : f a < f c := by
        by_contra hge
        exact h (decide_eq_true (le_of_not_lt hge))
      rw [List.pairwise_cons]
      refine ⟨fun y hy => ?_, List.pairwise_cons.2 ⟨hp.1, hp.2⟩⟩
      rcases List.mem_cons.1 hy with rfl | hy'
      · exact Or.inl hfa
      · rcases hp.1 y hy' with h2 | h2
        · exact Or.inl (hfa.trans h2)
        · exact Or.inl (lt_of_lt_of_le hfa (le_of_eq h2.1))

theorem foldlInsert_pairwise (f : ℕ → ℚ) :
    ∀ (l acc : List ℕ), acc.Pairwise (lexR f) → (∀ b ∈ acc, ∀ a ∈ l, b < a) →
      l.Pairwise (· < ·) →
      (l.foldl (fun acc a => stableInsert (fun i j => decide (f i ≤ f j)) a acc) acc).Pairwise
        (lexR f)
  | [], _, hp, _, _ => hp
  | x :: l, acc, hp, hcross, hl => by
    rw [List.foldl_cons]
    rw [List.pairwise_cons] at hl
    refine foldlInsert_pairwise f l _
      (stableInsert_pairwise f x acc hp (fun b hb => hcross b hb x (by simp)))
      (fun b hb a ha => ?_) hl.2
    rcases (stableInsert_mem _ x b acc).1 hb with rfl | hb'
    · exact hl.1 a ha
    · exact hcross b hb' a (by simp [ha])

theorem pySorted_range_pairwise (f : ℕ → ℚ) (n : ℕ) :
    (pySorted (fun i j => decide (f i ≤ f j)) (List.range n)).Pairwise (lexR f) :=
  foldlInsert_pairwise f (List.range n) [] (by simp) (by simp)
    (List.pairwise_lt_range n)

/-- In a list sorted by the strict stable order, membership of `i` in the
first `d` entries is equivalent to fewer than `d` entries preceding `i`. -/
theorem mem_take_iff_countP (f : ℕ → ℚ) (L : List ℕ)
    (hp : L.Pairwise (lexR f)) (hnd : L.Nodup) (i : ℕ) (hi : i ∈ L) (d : ℕ) :
    i ∈ L.take d ↔ L.countP (fun j => decide (lexR f j i)) < d := by
  obtain ⟨l₁, l₂, rfl⟩ := List.append_of_mem hi
  have hpa := List.pairwise_append.1 hp
  have hnda := List.nodup_append.1 hnd
  have hi1 : i ∉ l₁ := fun h => hnda.2.2 h (by simp)
  have hcount : (l₁ ++ i :: l₂).countP (fun j => decide (lexR f j i)) = l₁.length := by
    rw [List.countP_append]
    have h1 : l₁.countP (fun j => decide (lexR f j i)) = l₁.length :=
      List.countP_eq_length.2 (fun a ha => decide_eq_true (hpa.2.2 a ha i (by simp)))
    have h2 : (i :: l₂).countP (fun j => decide (lexR f j i)) = 0 := by
      rw [List.countP_eq_zero]
      intro a ha
      rcases List.mem_cons.1 ha with rfl | ha'
      · simp only [decide_eq_true_eq]
        exact fun hR => lexR_asymm hR hR
      · have hia := (List.pairwise_cons.1 hpa.2.1).1 a ha'
        simp only [decide_eq_true_eq]
        exact lexR_asymm hia
    omega
  rw [hcount]
  constructor
  · intro hmem
    by_contra hd
    push_neg at hd
    rw [List.take_append_eq_append_take] at hmem
    have h0 : d - l₁.length = 0 := by omega
    rw [h0] at hmem
    simp only [List.take_zero, List.append_nil] at hmem
    exact hi1 (List.take_subset d l₁ hmem)
  · intro hd
    rw [List.take_append_eq_append_take]
    have h1 : l₁.take d = l₁ := List.take_of_length_le (by omega)
    obtain ⟨k, hk⟩ : ∃ k, d - l₁.length = k + 1 := ⟨d - l₁.length - 1, by omega⟩
    rw [h1, hk]
    simp

theorem incrList_step (l : List ℤ) (a : ℕ) (idxs : List ℕ) (delta : ℤ) :
    incrList l (a :: idxs) delta =
      incrList (l.set a (l.getD a 0 + delta)) idxs delta := rfl

theorem incrList_length (delta : ℤ) :
    ∀ (idxs : List ℕ) (l : List ℤ), (incrList l idxs delta).length = l.length
  | [], _ => rfl
  | a :: idxs, l => by
    rw [incrList_step, incrList_length delta idxs, List.length_set]

theorem sum_set_int : ∀ (l : List ℤ) (a : ℕ), a < l.length → ∀ v : ℤ,
    (l.set a v).sum = l.sum - l.getD a 0 + v
  | x :: l, 0, _, v => by
    simp only [List.set, List.sum_cons, List.getD_cons_zero]
    ring
  | x :: l, a + 1, h, v => by
    simp only [List.set, List.sum_cons, List.getD_cons_succ]
    have := sum_set_int l a (by simpa using h) v
    linarith

theorem incrList_sum (delta : ℤ) : ∀ (idxs : List ℕ) (l : List ℤ),
    (∀ i ∈ idxs, i < l.length) →
    (incrList l idxs delta).sum = l.sum + idxs.length * delta
  | [], l, _ => by simp [incrList]
  | a :: idxs, l, h => by
    have ha : a < l.length := h a (by simp)
    rw [incrList_step,
      incrList_sum delta idxs _ (fun i hi => by
        rw [List.length_set]; exact h i (by simp [hi])),
      sum_set_int l a ha]
    simp only [List.length_cons]
    push_cast
    ring

theorem getD_set_int (l : List ℤ) (a k : ℕ) (v : ℤ) (hk : k < l.length) :
    (l.set a v).getD k 0 = if a = k then v else l.getD k 0 := by
  by_cases hak : a = k
  · subst hak
    simp [List.getD_eq_getElem?_getD, List.getElem?_set, hk]
  · simp [List.getD_eq_getElem?_getD, List.getElem?_set, hak]

theorem incrList_getD (delta : ℤ) : ∀ (idxs : List ℕ) (l : List ℤ), idxs.Nodup →
    ∀ k, k < l.length →
      (incrList l idxs delta).getD k 0 = l.getD k 0 + (if k ∈ idxs then delta else 0)
  | [], l, _, k, hk => by simp [incrList]
  | a :: idxs, l, hnd, k, hk => by
    have hna : a ∉ idxs := (List.nodup_cons.1 hnd).1
    rw [incrList_step,
      incrList_getD delta idxs _ (List.nodup_cons.1 hnd).2 k (by rw [List.length_set]; exact hk),
      getD_set_int l a k _ hk]
    by_cases hak : a = k
    · subst hak
      have hk' : a ∉ idxs := hna
      simp [hk']
    · rw [if_neg hak]
      by_cases hk2 : k ∈ idxs
      · rw [if_pos hk2, if_pos (by simp [hk2])]
      · rw [if_neg hk2, if_neg (by
          simp only [List.mem_cons, not_or]
          exact ⟨fun h => hak h.symm, hk2⟩)]

theorem lrFloor_length (floats : List ℚ) : (lrFloor floats).length = floats.length :=
  List.length_map _ _

theorem lrAdjust_getD (floats : List ℚ) (k : ℕ) (hk : k < floats.length) :
    (lrAdjust floats).getD k 0 =
      (if 0 < lrDiff floats then
        (lrFloor floats).getD k 0 +
          (if lrRankDesc floats.length (lrFracs floats) k < (lrDiff floats).toNat then 1 else 0)
      else if lrDiff floats < 0 then
        (lrFloor floats).getD k 0 +
          (if lrRankAsc floats.length (lrFracs floats) k < (-lrDiff floats).toNat then -1 else 0)
      else (lrFloor floats).getD k 0) := by
  have hkfl : k < (lrFloor floats).length := by rwa [lrFloor_length]
  rcases lt_trichotomy 0 (lrDiff floats) with hd1 | hd1 | hd1
  · -- shortfall: stable sort descending by fractional remainder
    simp only [lrAdjust, if_pos hd1]
    set g : ℕ → ℚ := fun m => -((lrFracs floats).getD m 0) with hg
    set idxs := pySorted
      (fun i j => decide ((lrFracs floats).getD j 0 ≤ (lrFracs floats).getD i 0))
      (List.range floats.length) with hidxs
    have hle : (fun i j => decide ((lrFracs floats).getD j 0 ≤ (lrFracs floats).getD i 0)) =
        (fun i j => decide (g i ≤ g j)) := by
      funext i j
      apply decide_eq_decide.mpr
      simp only [hg]
      constructor <;> intro <;> linarith
    have hperm : List.Perm idxs (List.range floats.length) := by
      rw [hidxs]
      exact pySorted_perm _ _
    have hnd : idxs.Nodup := hperm.nodup_iff.2 (List.nodup_range _)
    have hmemk : k ∈ idxs := hperm.mem_iff.2 (List.mem_range.2 hk)
    have hpw : idxs.Pairwise (lexR g) := by
      rw [hidxs, hle]
      exact pySorted_range_pairwise g _
    have hiff := mem_take_iff_countP g idxs hpw hnd k hmemk (lrDiff floats).toNat
    have hcount : idxs.countP (fun j => decide (lexR g j k)) =
        lrRankDesc floats.length (lrFracs floats) k := by
      rw [hperm.countP_eq, lrRankDesc, List.countP_eq_length_filter]
      congr 1
      apply List.filter_congr
      intro j _
      apply decide_eq_decide.mpr
      simp only [lexR, hg]
      constructor
      · rintro (h | ⟨he, hlt⟩)
        · exact Or.inl (by linarith)
        · exact Or.inr ⟨by linarith, hlt⟩
      · rintro (h | ⟨he, hlt⟩)
        · exact Or.inl (by linarith)
        · exact Or.inr ⟨by linarith, hlt⟩
    rw [incrList_getD 1 _ _ (hnd.sublist (List.take_sublist _ _)) k hkfl]
    congr 1
    by_cases hmem : k ∈ idxs.take (lrDiff floats).toNat
    · rw [if_pos hmem, if_pos (by rw [← hcount]; exact hiff.1 hmem)]
    · rw [if_neg hmem, if_neg (fun hrank => hmem (hiff.2 (by rw [hcount]; exact hrank)))]
  · -- floors already sum to 100
    have h1 : ¬ 0 < lrDiff floats := by rw [← hd1]; exact lt_irrefl 0
    have h2 : ¬ lrDiff floats < 0 := by rw [← hd1]; exact lt_irrefl 0
    simp only [lrAdjust, if_neg h1, if_neg h2]
  · -- excess: stable sort ascending by fractional remainder
    have h1 : ¬ 0 < lrDiff floats := by
      intro h
      exact absurd (h.trans hd1) (lt_irrefl 0)
    simp only [lrAdjust, if_neg h1, if_pos hd1]
    set f : ℕ → ℚ := fun m => (lrFracs floats).getD m 0 with hf
    set idxs := pySorted
      (fun i j => decide ((lrFracs floats).getD i 0 ≤ (lrFracs floats).getD j 0))
      (List.range floats.length) with hidxs
    have hle : (fun i j => decide ((lrFracs floats).getD i 0 ≤ (lrFracs floats).getD j 0)) =
        (fun i j => decide (f i ≤ f j)) := by
      funext i j
      simp only [hf]
    have hperm : List.Perm idxs (List.range floats.length) := by
      rw [hidxs]
      exact pySorted_perm _ _
    have hnd : idxs.Nodup := hperm.nodup_iff.2 (List.nodup_range _)
    have hmemk : k ∈ idxs := hperm.mem_iff.2 (List.mem_range.2 hk)
    have hpw : idxs.Pairwise (lexR f) := by
      rw [hidxs, hle]
      exact pySorted_range_pairwise f _
    have hiff := mem_take_iff_countP f idxs hpw hnd k hmemk (-lrDiff floats).toNat
    have hcount : idxs.countP (fun j => decide (lexR f j k)) =
        lrRankAsc floats.length (lrFracs floats) k := by
      rw [hperm.countP_eq, lrRankAsc, List.countP_eq_length_filter]
      congr 1
    rw [incrList_getD (-1) _ _ (hnd.sublist (List.take_sublist _ _)) k hkfl]
    congr 1
    by_cases hmem : k ∈ idxs.take (-lrDiff floats).toNat
    · rw [if_pos hmem, if_pos (by rw [← hcount]; exact hiff.1 hmem)]
    · rw [if_neg hmem, if_neg (fun hrank => hmem (hiff.2 (by rw [hcount]; exact hrank)))]

theorem lrAdjust_length (floats : List ℚ) : (lrAdjust floats).length = floats.length := by
  rw [lrAdjust]
  split_ifs <;> simp [incrList_length, lrFloor_length]

theorem lrAdjust_eq_spec (floats : List ℚ) : lrAdjust floats = largestRemainderSpec floats := by
  have hlenS : (largestRemainderSpec floats).length = floats.length := by
    simp [largestRemainderSpec]
  apply List.ext_getElem (by rw [lrAdjust_length, hlenS])
  intro k hk1 hk2
  have hk : k < floats.length := by rwa [lrAdjust_length] at hk1
  have hS : (largestRemainderSpec floats)[k] =
      (if 0 < lrDiff floats then
        (lrFloor floats).getD k 0 +
          (if lrRankDesc floats.length (lrFracs floats) k < (lrDiff floats).toNat then 1 else 0)
      else if lrDiff floats < 0 then
        (lrFloor floats).getD k 0 +
          (if lrRankAsc floats.length (lrFracs floats) k < (-lrDiff floats).toNat then -1 else 0)
      else (lrFloor floats).getD k 0) := by
    simp only [largestRemainderSpec, List.getElem_map, List.getElem_range]
  rw [hS, ← List.getD_eq_getElem (lrAdjust floats) 0 hk1]
  exact lrAdjust_getD floats k hk

/-! ### Parsed percentages are non-negative -/

theorem numValue_nonneg (a b : Str) : 0 ≤ numValue a b := by
  unfold numValue
  have h1 : (0 : ℚ) ≤ (natOfDigits a : ℚ) := by positivity
  have h2 : (0 : ℚ) ≤ (natOfDigits b : ℚ) / (10 : ℚ) ^ b.length := by positivity
  linarith

theorem matchComponent_nonneg (s : Str) (pct : ℚ) (d r : Str)
    (h : matchComponent s = some (pct, d, r)) : 0 ≤ pct := by
  unfold matchComponent at h
  repeat' split at h
  all_goals cases h
  all_goals exact numValue_nonneg _ _

theorem scanGo_nonneg : ∀ (fuel : ℕ) (s : Str), ∀ c ∈ scanGo fuel s, 0 ≤ c.1
  | _, [], c, hc => by simp [scanGo] at hc
  | 0, x :: t, c, hc => by simp [scanGo] at hc
  | fuel + 1, x :: t, c, hc => by
    rcases hm : matchComponent (x :: t) with _ | ⟨pct, d, r⟩
    · simp only [scanGo, hm] at hc
      exact scanGo_nonneg fuel t c hc
    · simp only [scanGo, hm] at hc
      split at hc
      · rcases List.mem_cons.1 hc with rfl | hc'
        · exact matchComponent_nonneg _ _ _ _ hm
        · exact scanGo_nonneg fuel r c hc'
      · rcases List.mem_cons.1 hc with rfl | hc'
        · exact matchComponent_nonneg _ _ _ _ hm
        · exact scanGo_nonneg fuel t c hc'

theorem parse_nonneg (text : Str) :
    ∀ c ∈ parse_components_for_normalization text, 0 ≤ c.1 := by
  unfold parse_components_for_normalization
  split_ifs with h
  · simp
  · intro c hc
    exact scanGo_nonneg _ _ c hc

theorem mainsOf_nonneg (text : Str) : ∀ c ∈ mainsOf text, 0 ≤ c.1 := fun c hc =>
  parse_nonneg text c (List.mem_filter.1 hc).1

/-! ### Sum bounds for the apportionment -/

theorem sum_map_share (r : ℚ) : ∀ l : List (ℚ × Str),
    (l.map (fun c => c.1 * 100 / r)).sum = (l.map Prod.fst).sum * (100 / r)
  | [] => by simp
  | c :: l => by
    simp only [List.map_cons, List.sum_cons, sum_map_share r l]
    ring

theorem sum_floor_le : ∀ l : List ℚ, ((lrFloor l).sum : ℚ) ≤ l.sum
  | [] => by simp [lrFloor]
  | x :: l => by
    have h1 := sum_floor_le l
    have h2 := Int.floor_le x
    simp only [lrFloor, List.map_cons, List.sum_cons] at *
    push_cast at *
    linarith

theorem sum_lt_floor_add : ∀ l : List ℚ, l ≠ [] →
    l.sum < ((lrFloor l).sum : ℚ) + l.length
  | [x], _ => by
    have := Int.lt_floor_add_one x
    simp only [lrFloor, List.map_cons, List.map_nil, List.sum_cons, List.sum_nil,
      List.length_cons, List.length_nil]
    push_cast
    linarith
  | x :: y :: t, _ => by
    have h1 := sum_lt_floor_add (y :: t) (by simp)
    have h2 := Int.lt_floor_add_one x
    simp only [lrFloor, List.map_cons, List.sum_cons, List.length_cons] at *
    push_cast at *
    linarith

/-- The apportionment invariant: on non-empty, non-negative shares
summing to exactly 100, the adjusted integer parts sum to exactly 100
and stay non-negative. -/
theorem lrAdjust_hyp (floats : List ℚ) (hne : floats ≠ [])
    (hnn : ∀ x ∈ floats, 0 ≤ x) (hsum : floats.sum = 100) :
    (lrAdjust floats).sum = 100 ∧ ∀ p ∈ lrAdjust floats, 0 ≤ p := by
  have hfl_le : (lrFloor floats).sum ≤ 100 := by
    have h := (sum_floor_le floats).trans_eq hsum
    exact_mod_cast h
  have hfl_gt : (100 : ℤ) < (lrFloor floats).sum + floats.length := by
    have h := sum_lt_floor_add floats hne
    rw [hsum] at h
    exact_mod_cast h
  have hdiff_nonneg : 0 ≤ lrDiff floats := by unfold lrDiff; omega
  have hfloor_nonneg : ∀ k, k < (lrFloor floats).length → 0 ≤ (lrFloor floats).getD k 0 := by
    intro k hk
    rw [List.getD_eq_getElem _ 0 hk]
    have hk2 : k < floats.length := by rwa [lrFloor_length] at hk
    rw [show (lrFloor floats)[k] = ⌊floats[k]⌋ from List.getElem_map _]
    exact Int.floor_nonneg.2 (hnn _ (List.getElem_mem hk2))
  rcases eq_or_lt_of_le hdiff_nonneg with hd0 | hdpos
  · rw [lrAdjust, if_neg (by omega), if_neg (by omega)]
    constructor
    · unfold lrDiff at hd0
      omega
    · intro p hp
      obtain ⟨k, hk, rfl⟩ := List.mem_iff_getElem.1 hp
      rw [← List.getD_eq_getElem _ 0 hk]
      exact hfloor_nonneg k hk
  · rw [lrAdjust, if_pos hdpos]
    have hperm := pySorted_perm
      (fun i j => decide ((lrFracs floats).getD j 0 ≤ (lrFracs floats).getD i 0))
      (List.range floats.length)
    have hnd : (pySorted
        (fun i j => decide ((lrFracs floats).getD j 0 ≤ (lrFracs floats).getD i 0))
        (List.range floats.length)).Nodup := hperm.nodup_iff.2 (List.nodup_range _)
    have hmem_lt : ∀ i ∈ (pySorted
        (fun i j => decide ((lrFracs floats).getD j 0 ≤ (lrFracs floats).getD i 0))
        (List.range floats.length)).take (lrDiff floats).toNat,
        i < (lrFloor floats).length := by
      intro i hi
      rw [lrFloor_length]
      exact List.mem_range.1 (hperm.mem_iff.1 (List.take_subset _ _ hi))
    constructor
    · rw [incrList_sum 1 _ _ hmem_lt]
      have hlen_sorted : (pySorted
          (fun i j => decide ((lrFracs floats).getD j 0 ≤ (lrFracs floats).getD i 0))
          (List.range floats.length)).length = floats.length := by
        rw [hperm.length_eq, List.length_range]
      have hdiff_lt : lrDiff floats < (floats.length : ℤ) := by
        unfold lrDiff
        omega
      rw [List.length_take, hlen_sorted]
      unfold lrDiff at *
      omega
    · intro p hp
      obtain ⟨k, hk, rfl⟩ := List.mem_iff_getElem.1 hp
      have hk' : k < (lrFloor floats).length := by
        rwa [incrList_length] at hk
      rw [← List.getD_eq_getElem _ 0 hk,
        incrList_getD 1 _ _ (hnd.sublist (List.take_sublist _ _)) k hk']
      have h0 := hfloor_nonneg k hk'
      split_ifs <;> omega

theorem skuPages_eq_filter :
    ∀ skus : List Str, skuPages skus = (skus.map pyStrip).filter (· ≠ [])
  | [] => rfl
  | s :: rest => by
    rw [skuPages]
    by_cases h : pyStrip s = [] <;>
      simp [h, skuPages_eq_filter rest]

/-! ### Claim C1 (normalized percentages partition 100) -/

/-- C1: for every composition string whose retained (non-filler)
components have a positive raw total, the normalizer's integer
percentages are all non-negative and sum to exactly 100, with one
percentage per retained component. -/
theorem claim_C1 (text : Str) (h : 0 < mainTotal text) :
    (normalizedPcts text).sum = 100 ∧ (∀ p ∈ normalizedPcts text, 0 ≤ p) ∧
    (normalizedPcts text).length = (mainsOf text).length := by
  have hne : mainsOf text ≠ [] := by
    intro h0
    rw [mainTotal, h0] at h
    simp at h
  have hflne : (mainsOf text).map (fun c => c.1 * 100 / mainTotal text) ≠ [] := by
    intro h0
    exact hne (List.map_eq_nil_iff.1 h0)
  have hnn : ∀ x ∈ (mainsOf text).map (fun c => c.1 * 100 / mainTotal text), 0 ≤ x := by
    intro x hx
    obtain ⟨c, hc, rfl⟩ := List.mem_map.1 hx
    exact div_nonneg (mul_nonneg (mainsOf_nonneg text c hc) (by norm_num)) h.le
  have hsum : ((mainsOf text).map (fun c => c.1 * 100 / mainTotal text)).sum = 100 := by
    rw [sum_map_share]
    rw [show ((mainsOf text).map Prod.fst).sum = mainTotal text from rfl]
    field_simp
  have hmain := lrAdjust_hyp _ hflne hnn hsum
  refine ⟨hmain.1, hmain.2, ?_⟩
  rw [normalizedPcts, lrAdjust_length, List.length_map]

/-- C1 witness: "33% Cotton 33% Nylon 34% PVC" has positive retained
total, and its normalized percentages are non-negative, one per
component, and sum to 100. -/
theorem claim_C1_witness :
    (normalizedPcts "33% Cotton 33% Nylon 34% PVC".data).sum = 100 ∧
    (∀ p ∈ normalizedPcts "33% Cotton 33% Nylon 34% PVC".data, 0 ≤ p) ∧
    (normalizedPcts "33% Cotton 33% Nylon 34% PVC".data).length =
      (mainsOf "33% Cotton 33% Nylon 34% PVC".data).length :=
  claim_C1 "33% Cotton 33% Nylon 34% PVC".data (by with_unfolding_all decide)

/-! ### Claim C2 (the rescaling is the largest-remainder method) -/

/-- C2: the code's adjustment of the floored shares equals the spec's
largest-remainder description — floors of `raw * 100 / total`; missing
units added one-by-one to the components with the largest fractional
remainders, ties broken by original order; excess units removed from the
components with the smallest fractional remainders — both in general and
for the shares the normalizer computes from a composition string. -/
theorem claim_C2 :
    (∀ floats : List ℚ, lrAdjust floats = largestRemainderSpec floats) ∧
    ∀ text : Str, normalizedPcts text =
      largestRemainderSpec ((mainsOf text).map (fun c => c.1 * 100 / mainTotal text)) :=
  ⟨lrAdjust_eq_spec, fun _ => lrAdjust_eq_spec _⟩

/-! ### Claim C3 (Rule Translator idempotence) -/

/-- C3 counterexample: the Rule Translator is not idempotent on its own
output; re-translating "POLICLORETO DE VINILA (PVC)" double-substitutes,
because `\bpvc\b` matches the parenthesised abbreviation again. -/
theorem claim_C3_counterexample :
    basic_translate_freeform "POLICLORETO DE VINILA (PVC)".data ≠
      "POLICLORETO DE VINILA (PVC)".data := by
  with_unfolding_all decide

/-- C3 (amended): the Rule Translator fixes translated outputs that do not
contain the parenthesised abbreviations, e.g. "POLIÉSTER", "POLIAMIDA",
"ALGODÃO", "COURO", "METAL", "ENCHIMENTO", "TECIDO BASE"; but outputs
containing "(PVC)" or "(PU)" are substituted again: "POLICLORETO DE
VINILA (PVC)" and "POLIURETANO (PU)" are doubled. -/
theorem claim_C3 :
    basic_translate_freeform "POLIÉSTER".data = "POLIÉSTER".data ∧
    basic_translate_freeform "POLIAMIDA".data = "POLIAMIDA".data ∧
    basic_translate_freeform "ALGODÃO".data = "ALGODÃO".data ∧
    basic_translate_freeform "COURO".data = "COURO".data ∧
    basic_translate_freeform "METAL".data = "METAL".data ∧
    basic_translate_freeform "ENCHIMENTO".data = "ENCHIMENTO".data ∧
    basic_translate_freeform "TECIDO BASE".data = "TECIDO BASE".data ∧
    basic_translate_freeform "POLICLORETO DE VINILA (PVC)".data =
      "POLICLORETO DE VINILA (POLICLORETO DE VINILA (PVC))".data ∧
    basic_translate_freeform "POLIURETANO (PU)".data =
      "POLIURETANO (POLIURETANO (PU))".data := by
  with_unfolding_all decide

/-! ### Claim C5 (emission loop never draws below the text band) -/

/-- C5: for every input text (and any brand, assets and width oracle) the
emission loop places every line at a baseline strictly above the text
band's bottom limit, the placed lines are an initial prefix of the wrapped
lines (the rest are silently dropped), and it only stops early when the
next baseline would be at or below the bottom limit.  The loop is a total
function: no input raises an error. -/
theorem claim_C5 (brand : Brand) (logo icons : Option (ℚ × ℚ))
    (sw : Str → ℚ) (full : Str) :
    (∀ p ∈ carelabelEmitted brand logo icons sw full,
        textBottomLimit icons < p.2) ∧
    (carelabelEmitted brand logo icons sw full).map Prod.fst <+:
        wrappedLinesFor sw max_text_width full ∧
    ((carelabelEmitted brand logo icons sw full).length <
        (wrappedLinesFor sw max_text_width full).length →
      yStart (textTopLimit brand logo) (textBottomLimit icons)
          (wrappedLinesFor sw max_text_width full).length -
        leading * (carelabelEmitted brand logo icons sw full).length ≤
        textBottomLimit icons) := by
  refine ⟨fun p hp => emitLines_mem_gt _ _ _ _ p hp,
    emitLines_isPrefix _ _ _ _, fun h => emitLines_stop _ _ _ _ h⟩

/-- C5 witness: a concrete label (no assets, one-line text) has its single
line placed strictly above the bottom limit. -/
theorem claim_C5_witness :
    textBottomLimit none < (13680 / 127 : ℚ) :=
  (claim_C5 Brand.Arezzo none none (fun l => (l.length : ℚ)) "A".data).1
    ("A".data, 13680 / 127)
    ((show carelabelEmitted Brand.Arezzo none none (fun l => (l.length : ℚ)) "A".data =
        [("A".data, 13680 / 127)] by with_unfolding_all rfl) ▸
      List.mem_singleton_self _)

/-! ### Word-wrapping lemmas -/

theorem splitAux_flag_ne_nil : ∀ s : Str, (splitAux s).2 = true → (splitAux s).1 ≠ []
  | c :: t, h => by
    rw [splitAux] at *
    by_cases hc : isPySpace c
    · simp [hc] at h
    · simp only [hc, Bool.false_eq_true, if_false] at h ⊢
      rcases h2 : (splitAux t).2 with _ | _ <;> rcases h1 : (splitAux t).1 with _ | ⟨w, ws⟩ <;>
        simp [h1, h2]

theorem splitAux_all_space : ∀ s : Str, (∀ c ∈ s, isPySpace c = true) → splitAux s = ([], false)
  | [], _ => rfl
  | c :: t, h => by
    have hc : isPySpace c = true := h c (by simp)
    have ht := splitAux_all_space t (fun x hx => h x (by simp [hx]))
    rw [splitAux, ht]
    simp [hc]

theorem splitAux_word : ∀ s : Str, s ≠ [] → (∀ c ∈ s, isPySpace c = false) →
    splitAux s = ([s], true)
  | [c], _, h => by
    have hc := h c (by simp)
    rw [splitAux, splitAux]
    simp [hc]
  | c :: d :: t, _, h => by
    have hc := h c (by simp)
    have ht := splitAux_word (d :: t) (by simp) (fun x hx => h x (by simp [List.mem_cons] at hx ⊢; tauto))
    rw [splitAux, ht]
    simp [hc]

theorem splitAux_mem_props : ∀ s : Str, ∀ w ∈ (splitAux s).1,
    w ≠ [] ∧ ∀ c ∈ w, isPySpace c = false
  | c :: t, w, hw => by
    rw [splitAux] at hw
    by_cases hc : isPySpace c
    · rw [if_pos hc] at hw
      exact splitAux_mem_props t w hw
    · rw [if_neg hc] at hw
      rcases h2 : (splitAux t).2 with _ | _
      · simp only [h2] at hw
        rcases List.mem_cons.1 hw with rfl | hw'
        · exact ⟨by simp, by simpa using hc⟩
        · exact splitAux_mem_props t w hw'
      · obtain ⟨v, vs, h1⟩ := List.exists_cons_of_ne_nil (splitAux_flag_ne_nil t h2)
        simp only [h2, h1] at hw
        rcases List.mem_cons.1 hw with rfl | hw'
        · have hv := splitAux_mem_props t v (by rw [h1]; simp)
          refine ⟨by simp, fun x hx => ?_⟩
          rcases List.mem_cons.1 hx with rfl | hx'
          · simpa using hc
          · exact hv.2 x hx'
        · exact splitAux_mem_props t w (by rw [h1]; simp [hw'])

theorem splitAux_append_space : ∀ a b : Str,
    splitAux (a ++ ' ' :: b) = ((splitAux a).1 ++ (splitAux b).1, (splitAux a).2)
  | [], b => by
    rw [List.nil_append, splitAux]
    simp [isPySpace, splitAux]
  | c :: t, b => by
    have IH := splitAux_append_space t b
    rw [List.cons_append, splitAux, IH, splitAux]
    by_cases hc : isPySpace c
    · simp [hc]
    · simp only [hc, Bool.false_eq_true, if_false]
      rcases h2 : (splitAux t).2 with _ | _
      · rcases h1 : (splitAux t).1 with _ | ⟨w, ws⟩ <;> simp [h1, h2]
      · have hne := splitAux_flag_ne_nil t h2
        rcases h1 : (splitAux t).1 with _ | ⟨w, ws⟩
        · exact absurd h1 hne
        · simp [h1, h2]

theorem pySplit_append_space (a b : Str) :
    pySplit (a ++ ' ' :: b) = pySplit a ++ pySplit b := by
  unfold pySplit
  rw [splitAux_append_space]

theorem pySplit_word (s : Str) (h0 : s ≠ []) (h : ∀ c ∈ s, isPySpace c = false) :
    pySplit s = [s] := by
  unfold pySplit
  rw [splitAux_word s h0 h]

theorem wrapAux_flatten (sw : Str → ℚ) (maxw : ℚ) :
    ∀ (ws : List Str) (cur : Str),
      (∀ w ∈ ws, w ≠ [] ∧ ∀ c ∈ w, isPySpace c = false) →
      ((wrapAux sw maxw ws cur).map pySplit).flatten = pySplit cur ++ ws
  | [], cur, _ => by
    rw [wrapAux]
    by_cases hc : cur = [] <;> simp [hc, pySplit, splitAux]
  | w :: ws, cur, hws => by
    have hw := hws w (by simp)
    have hws' : ∀ v ∈ ws, v ≠ [] ∧ ∀ c ∈ v, isPySpace c = false :=
      fun v hv => hws v (by simp [hv])
    rw [wrapAux]
    by_cases hc : cur = []
    · rw [if_pos hc, wrapAux_flatten sw maxw ws w hws', pySplit_word w hw.1 hw.2, hc]
      simp [pySplit, splitAux]
    · rw [if_neg hc]
      by_cases hfit : sw (cur ++ ' ' :: w) ≤ maxw
      · rw [if_pos hfit, wrapAux_flatten sw maxw ws _ hws', pySplit_append_space,
          pySplit_word w hw.1 hw.2]
        simp
      · rw [if_neg hfit]
        simp only [List.map_cons, List.flatten_cons]
        rw [wrapAux_flatten sw maxw ws w hws', pySplit_word w hw.1 hw.2]
        simp

theorem wrapAux_width (sw : Str → ℚ) (maxw : ℚ) :
    ∀ (ws : List Str) (cur : Str),
      (∀ w ∈ ws, w ≠ [] ∧ ∀ c ∈ w, isPySpace c = false) →
      ((pySplit cur).length ≤ 1 ∨ sw cur ≤ maxw) →
      ∀ line ∈ wrapAux sw maxw ws cur, 2 ≤ (pySplit line).length → sw line ≤ maxw
  | [], cur, _, hinv, line, hline, h2 => by
    rw [wrapAux] at hline
    by_cases hc : cur = []
    · simp [hc] at hline
    · rw [if_neg hc] at hline
      rcases List.mem_singleton.1 hline with rfl
      rcases hinv with h | h
      · omega
      · exact h
  | w :: ws, cur, hws, hinv, line, hline, h2 => by
    have hw := hws w (by simp)
    have hws' : ∀ v ∈ ws, v ≠ [] ∧ ∀ c ∈ v, isPySpace c = false :=
      fun v hv => hws v (by simp [hv])
    have hword : (pySplit w).length ≤ 1 := by
      rw [pySplit_word w hw.1 hw.2]; simp
    rw [wrapAux] at hline
    by_cases hc : cur = []
    · rw [if_pos hc] at hline
      exact wrapAux_width sw maxw ws w hws' (Or.inl hword) line hline h2
    · rw [if_neg hc] at hline
      by_cases hfit : sw (cur ++ ' ' :: w) ≤ maxw
      · rw [if_pos hfit] at hline
        exact wrapAux_width sw maxw ws _ hws' (Or.inr hfit) line hline h2
      · rw [if_neg hfit] at hline
        rcases List.mem_cons.1 hline with rfl | hline'
        · rcases hinv with h | h
          · omega
          · exact h
        · exact wrapAux_width sw maxw ws w hws' (Or.inl hword) line hline' h2

theorem pyStrip_all_space (s : Str) (h : ∀ c ∈ s, isPySpace c = true) : pyStrip s = [] := by
  unfold pyStrip
  have h1 : s.dropWhile isPySpace = [] := List.dropWhile_eq_nil_iff.2 h
  rw [h1]
  rfl

theorem splitAux_ne_nil_of_mem :
    ∀ (s : Str) (c : Char), c ∈ s → isPySpace c = false → (splitAux s).1 ≠ []
  | x :: t, c, hc, hcs => by
    rw [splitAux]
    by_cases hx : isPySpace x
    · have hct : c ∈ t := by
        rcases List.mem_cons.1 hc with rfl | h
        · rw [hx] at hcs; cases hcs
        · exact h
      simpa [hx] using splitAux_ne_nil_of_mem t c hct hcs
    · simp only [hx, Bool.false_eq_true, if_false]
      rcases h2 : (splitAux t).2 with _ | _ <;> rcases h1 : (splitAux t).1 with _ | ⟨w, ws⟩ <;>
        simp

theorem wrapAux_ne_nil (sw : Str → ℚ) (maxw : ℚ) :
    ∀ (ws : List Str) (cur : Str), (cur ≠ [] ∨ ws ≠ []) →
      (∀ w ∈ ws, w ≠ []) → wrapAux sw maxw ws cur ≠ []
  | [], cur, hor, _ => by
    rcases hor with h | h
    · rw [wrapAux, if_neg h]; simp
    · exact absurd rfl h
  | w :: ws, cur, _, hws => by
    have hw : w ≠ [] := hws w (by simp)
    have hws' : ∀ v ∈ ws, v ≠ [] := fun v hv => hws v (by simp [hv])
    rw [wrapAux]
    by_cases hc : cur = []
    · rw [if_pos hc]
      exact wrapAux_ne_nil sw maxw ws w (Or.inl hw) hws'
    · rw [if_neg hc]
      by_cases hfit : sw (cur ++ ' ' :: w) ≤ maxw
      · rw [if_pos hfit]
        exact wrapAux_ne_nil sw maxw ws _ (Or.inl (by simp [hc])) hws'
      · rw [if_neg hfit]; simp

theorem wrap_line_ne_nil (sw : Str → ℚ) (maxw : ℚ) (line : Str)
    (h : pyStrip line ≠ []) : wrap_line sw maxw line ≠ [] := by
  rw [wrap_line]
  split_ifs with h0
  · simp
  · have hex : ∃ c ∈ line, isPySpace c = false := by
      by_contra hall
      push_neg at hall
      exact h (pyStrip_all_space line (fun c hc => by
        have := hall c hc
        revert this
        cases isPySpace c <;> simp))
    obtain ⟨c, hc, hcs⟩ := hex
    exact wrapAux_ne_nil sw maxw _ _ (Or.inr (splitAux_ne_nil_of_mem line c hc hcs))
      (fun w hw => (splitAux_mem_props line w hw).1)

theorem pySplitlines_single : ∀ s : Str, s ≠ [] → (∀ c ∈ s, c ≠ '\n' ∧ c ≠ '\r') →
    pySplitlines s = [s]
  | [c], _, h => by
    have hc := h c (by simp)
    rw [pySplitlines, if_neg (by tauto : ¬(c = '\r' ∨ c = '\n'))]
  | c :: d :: t, _, h => by
    have hc := h c (by simp)
    have ht := pySplitlines_single (d :: t) (by simp)
      (fun x hx => h x (by simp [List.mem_cons] at hx ⊢; tauto))
    rw [pySplitlines, if_neg hc.2, if_neg hc.1, ht]

theorem length_le_length_flatMap (g : Str → List Str) :
    ∀ L : List Str, (∀ x ∈ L, g x ≠ []) → L.length ≤ (L.flatMap g).length
  | [], _ => by simp
  | x :: L, h => by
    have h1 : 1 ≤ (g x).length :=
      List.length_pos.2 (h x (by simp))
    have h2 := length_le_length_flatMap g L (fun y hy => h y (by simp [hy]))
    simp only [List.flatMap_cons, List.length_cons, List.length_append]
    omega

/-! ### Claim C4 (wrapper correctness) -/

/-- C4: for every width oracle (font and size), maximum width and input
line, every produced sub-line with at least two words measures within the
maximum width (a single-word sub-line may exceed it), and concatenating
the sub-lines' words in order reproduces the input line's word sequence
exactly. -/
theorem claim_C4 (sw : Str → ℚ) (maxw : ℚ) (text : Str) :
    (∀ line ∈ wrap_line sw maxw text, 2 ≤ (pySplit line).length → sw line ≤ maxw) ∧
    ((wrap_line sw maxw text).map pySplit).flatten = pySplit text := by
  by_cases ht : text = []
  · subst ht
    constructor
    · intro line hl h2
      rw [wrap_line, if_pos rfl] at hl
      rcases List.mem_singleton.1 hl with rfl
      simp [pySplit, splitAux] at h2
    · rw [wrap_line, if_pos rfl]
      simp [pySplit, splitAux]
  · constructor
    · intro line hl h2
      rw [wrap_line, if_neg ht] at hl
      exact wrapAux_width sw maxw (pySplit text) [] (splitAux_mem_props text)
        (Or.inl (by simp [pySplit, splitAux])) line hl h2
    · rw [wrap_line, if_neg ht,
        wrapAux_flatten sw maxw (pySplit text) [] (splitAux_mem_props text)]
      simp [pySplit, splitAux]

/-- C4 witness: with the length oracle and maximum width 5, the line
"ab cd ef" wraps to ["ab cd", "ef"]; the two-word sub-line "ab cd" fits,
and the words concatenate back. -/
theorem claim_C4_witness :
    (fun l : Str => (l.length : ℚ)) "ab cd".data ≤ 5 ∧
    ((wrap_line (fun l : Str => (l.length : ℚ)) 5 "ab cd ef".data).map pySplit).flatten =
      pySplit "ab cd ef".data :=
  ⟨(claim_C4 (fun l : Str => (l.length : ℚ)) 5 "ab cd ef".data).1 "ab cd".data
      (by with_unfolding_all decide) (by decide),
    (claim_C4 (fun l : Str => (l.length : ℚ)) 5 "ab cd ef".data).2⟩

/-! ### Claim C9 (blank lines versus the wrapper) -/

/-- C9: a non-empty whitespace-only line wraps to zero sub-lines, while
the empty line wraps to exactly one empty sub-line; the carelabel
generator compensates by substituting a single empty line for any source
line that is blank after stripping, so every source line contributes at
least one sub-line to the wrapped block. -/
theorem claim_C9 (sw : Str → ℚ) (maxw : ℚ) :
    (∀ s : Str, s ≠ [] → (∀ c ∈ s, isPySpace c = true) → wrap_line sw maxw s = []) ∧
    wrap_line sw maxw [] = [[]] ∧
    (∀ s : Str, s ≠ [] → (∀ c ∈ s, c = ' ') → wrappedLinesFor sw maxw s = [[]]) ∧
    (∀ full : Str, (pySplitlines full).length ≤ (wrappedLinesFor sw maxw full).length) := by
  refine ⟨fun s hs hsp => ?_, rfl, fun s hs hsp => ?_, fun full => ?_⟩
  · rw [wrap_line, if_neg hs]
    have h1 : pySplit s = [] := by
      unfold pySplit
      rw [splitAux_all_space s hsp]
    rw [h1, wrapAux, if_pos rfl]
  · have hsp' : ∀ c ∈ s, isPySpace c = true := fun c hc => by
      rw [hsp c hc]; rfl
    have h1 : pySplitlines s = [s] :=
      pySplitlines_single s hs (fun c hc => by rw [hsp c hc]; exact ⟨by decide, by decide⟩)
    rw [wrappedLinesFor, h1]
    simp [pyStrip_all_space s hsp']
  · rw [wrappedLinesFor]
    refine length_le_length_flatMap _ _ (fun line _ => ?_)
    split_ifs with hb
    · simp
    · exact wrap_line_ne_nil sw maxw line hb

/-- C9 witness: the two-space line wraps to no sub-lines, yet contributes
exactly one empty sub-line through the generator's blank-line
substitution. -/
theorem claim_C9_witness :
    wrap_line (fun l : Str => (l.length : ℚ)) 5 "  ".data = [] ∧
    wrappedLinesFor (fun l : Str => (l.length : ℚ)) 5 "  ".data = [[]] :=
  ⟨(claim_C9 (fun l : Str => (l.length : ℚ)) 5).1 "  ".data (by decide) (by decide),
    (claim_C9 (fun l : Str => (l.length : ℚ)) 5).2.2.1 "  ".data (by decide) (by decide)⟩

/-! ### Claim C7 (SKU pages) -/

/-- C7: the SKU layout emits exactly one page per entry that is non-blank
after trimming, in input order (the pages are the trimmed non-blank
entries); in particular the batch ["A1", "", "  ", "B2"] yields exactly
the two pages "A1" then "B2". -/
theorem claim_C7 :
    (∀ skus : List Str, skuPages skus = (skus.map pyStrip).filter (· ≠ [])) ∧
    skuPages ["A1".data, [], "  ".data, "B2".data] = ["A1".data, "B2".data] :=
  ⟨skuPages_eq_filter, by decide⟩

/-! ### Claim C6 (fallback path of the normalizer) -/

/-- C6: whenever the parser finds no component, or filtering removes all
components, or the remaining total is not positive, the normalizer
returns exactly the verbatim translation of the raw input (Rule
Translator only, no rescaling); all functions involved are total, so no
error is raised. -/
theorem claim_C6 (text : Str)
    (h : parse_components_for_normalization text = [] ∨ mainsOf text = [] ∨
      mainTotal text ≤ 0) :
    normalize_and_translate_composition text = basic_translate_freeform text := by
  rw [normalize_and_translate_composition]
  split_ifs with h0 h1 h2 h3
  · subst h0
    simp [basic_translate_freeform]
  · rfl
  · rfl
  · rfl
  · exfalso
    rcases h with h | h | h
    · exact h1 h
    · exact h2 h
    · exact h3 h

/-- C6 witness: "Leather upper" has no percentage component, and the
normalizer returns its verbatim translation. -/
theorem claim_C6_witness :
    normalize_and_translate_composition "Leather upper".data =
      basic_translate_freeform "Leather upper".data :=
  claim_C6 "Leather upper".data (Or.inl (by with_unfolding_all decide))

/-! ### Claim C10 (substring-based non-principal filter) -/

theorem strContains_iff : ∀ hay needle : Str, strContains hay needle = true ↔ needle <:+: hay
  | [], needle => by
    rw [strContains]
    by_cases hp : needle.isPrefixOf ([] : Str)
    · simp only [hp, if_true, true_iff]
      exact (List.isPrefixOf_iff_prefix.1 hp).isInfix
    · simp only [hp, Bool.false_eq_true, if_false]
      rw [List.infix_nil]
      constructor
      · intro h; cases h
      · intro h
        subst h
        exact absurd (List.isPrefixOf_iff_prefix.2 (List.nil_prefix)) hp
  | c :: t, needle => by
    rw [strContains]
    by_cases hp : needle.isPrefixOf (c :: t)
    · simp only [hp, if_true, true_iff]
      exact (List.isPrefixOf_iff_prefix.1 hp).isInfix
    · simp only [hp, Bool.false_eq_true, if_false]
      rw [strContains_iff t needle, List.infix_cons_iff]
      constructor
      · exact Or.inr
      · rintro (h | h)
        · exact absurd (List.isPrefixOf_iff_prefix.2 h) hp
        · exact h

/-- C10: a parsed component is retained exactly when its lower-cased
description does not contain any of "filler", "base fabric",
"enchimento", "tecido base" as a substring; in particular
"40% Polyester (Filler)" is dropped entirely and "60% PVC 40% Polyester
(Filler)" normalizes to "100% POLICLORETO DE VINILA (PVC)". -/
theorem claim_C10 :
    (∀ (text : Str) (c : ℚ × Str), c ∈ mainsOf text ↔
      c ∈ parse_components_for_normalization text ∧
        ¬("filler".data <:+: pyLower c.2 ∨ "base fabric".data <:+: pyLower c.2 ∨
          "enchimento".data <:+: pyLower c.2 ∨ "tecido base".data <:+: pyLower c.2)) ∧
    mainsOf "60% PVC 40% Polyester (Filler)".data = [(60, "PVC".data)] ∧
    normalize_and_translate_composition "60% PVC 40% Polyester (Filler)".data =
      "100% POLICLORETO DE VINILA (PVC)".data := by
  refine ⟨fun text c => ?_, by with_unfolding_all rfl, by with_unfolding_all decide⟩
  rw [mainsOf, List.mem_filter]
  have hiff : (!(isNonPrincipal c.2)) = true ↔
      ¬("filler".data <:+: pyLower c.2 ∨ "base fabric".data <:+: pyLower c.2 ∨
        "enchimento".data <:+: pyLower c.2 ∨ "tecido base".data <:+: pyLower c.2) := by
    rw [Bool.not_eq_true']
    rw [← Bool.not_eq_true (isNonPrincipal c.2)] at *
    constructor
    · intro hfalse hor
      apply hfalse
      simp only [isNonPrincipal, Bool.or_eq_true, strContains_iff]
      tauto
    · intro hnot
      by_contra htrue
      simp only [isNonPrincipal, Bool.or_eq_true, strContains_iff] at htrue
      tauto
  rw [hiff]

/-! ### Claim C8 (logo scaling) -/

/-- C8: for a brand with an existing logo of positive pixel size, the
drawn rectangle preserves the aspect ratio, is centered horizontally,
never exceeds the band width (the Reserva 1.5x override is re-clamped to
the band width), and for brands without the override also fits the band
height budget. -/
theorem claim_C8 (brand : Brand) (iw ih : ℚ) (hw : 0 < iw) (hh : 0 < ih) :
    (logoGeometry brand iw ih).w ≤ logo_max_width ∧
    (brand ≠ Brand.Reserva → (logoGeometry brand iw ih).h ≤ logo_max_height) ∧
    (logoGeometry brand iw ih).w * ih = (logoGeometry brand iw ih).h * iw ∧
    2 * (logoGeometry brand iw ih).x + (logoGeometry brand iw ih).w = labelWidth := by
  have hmw : (0 : ℚ) < logo_max_width := by
    norm_num [logo_max_width, labelWidth, inner_margin_x, mmQ]
  have hbase_w : iw * min (logo_max_width / iw) (logo_max_height / ih) ≤ logo_max_width := by
    calc iw * min (logo_max_width / iw) (logo_max_height / ih)
        ≤ iw * (logo_max_width / iw) :=
          mul_le_mul_of_nonneg_left (min_le_left _ _) hw.le
      _ = logo_max_width := mul_div_cancel₀ _ hw.ne'
  have hbase_h : ih * min (logo_max_width / iw) (logo_max_height / ih) ≤ logo_max_height := by
    calc ih * min (logo_max_width / iw) (logo_max_height / ih)
        ≤ ih * (logo_max_height / ih) :=
          mul_le_mul_of_nonneg_left (min_le_right _ _) hh.le
      _ = logo_max_height := mul_div_cancel₀ _ hh.ne'
  by_cases hb : brand = Brand.Reserva
  · subst hb
    by_cases hclamp : logo_max_width <
        iw * min (logo_max_width / iw) (logo_max_height / ih) * (3 / 2)
    · have hgw : (logoGeometry Brand.Reserva iw ih).w =
          iw * min (logo_max_width / iw) (logo_max_height / ih) * (3 / 2) *
            (logo_max_width /
              (iw * min (logo_max_width / iw) (logo_max_height / ih) * (3 / 2))) := by
        simp only [logoGeometry, if_pos rfl, if_pos hclamp, if_true]
      have hgh : (logoGeometry Brand.Reserva iw ih).h =
          ih * min (logo_max_width / iw) (logo_max_height / ih) * (3 / 2) *
            (logo_max_width /
              (iw * min (logo_max_width / iw) (logo_max_height / ih) * (3 / 2))) := by
        simp only [logoGeometry, if_pos rfl, if_pos hclamp, if_true]
      have hgx : (logoGeometry Brand.Reserva iw ih).x =
          (labelWidth - (logoGeometry Brand.Reserva iw ih).w) / 2 := by
        simp only [logoGeometry, if_pos rfl, if_pos hclamp, if_true]
      have hdw : iw * min (logo_max_width / iw) (logo_max_height / ih) * (3 / 2) ≠ 0 := by
        intro h0
        rw [h0] at hclamp
        exact absurd hmw (not_lt_of_lt hclamp)
      refine ⟨?_, by simp, ?_, ?_⟩
      · rw [hgw, mul_div_cancel₀ _ hdw]
      · rw [hgw, hgh]; ring
      · rw [hgx]; ring
    · have hgw : (logoGeometry Brand.Reserva iw ih).w =
          iw * min (logo_max_width / iw) (logo_max_height / ih) * (3 / 2) := by
        simp only [logoGeometry, if_pos rfl, if_neg hclamp, if_true]
      have hgh : (logoGeometry Brand.Reserva iw ih).h =
          ih * min (logo_max_width / iw) (logo_max_height / ih) * (3 / 2) := by
        simp only [logoGeometry, if_pos rfl, if_neg hclamp, if_true]
      have hgx : (logoGeometry Brand.Reserva iw ih).x =
          (labelWidth - (logoGeometry Brand.Reserva iw ih).w) / 2 := by
        simp only [logoGeometry, if_pos rfl, if_neg hclamp, if_true]
      refine ⟨?_, by simp, ?_, ?_⟩
      · rw [hgw]; exact le_of_not_lt hclamp
      · rw [hgw, hgh]; ring
      · rw [hgx]; ring
  · have hgw : (logoGeometry brand iw ih).w =
        iw * min (logo_max_width / iw) (logo_max_height / ih) := by
      simp only [logoGeometry, if_neg hb]
    have hgh : (logoGeometry brand iw ih).h =
        ih * min (logo_max_width / iw) (logo_max_height / ih) := by
      simp only [logoGeometry, if_neg hb]
    have hgx : (logoGeometry brand iw ih).x =
        (labelWidth - (logoGeometry brand iw ih).w) / 2 := by
      simp only [logoGeometry, if_neg hb]
    refine ⟨?_, fun _ => ?_, ?_, ?_⟩
    · rw [hgw]; exact hbase_w
    · rw [hgh]; exact hbase_h
    · rw [hgw, hgh]; ring
    · rw [hgx]; ring

/-- C8 witness: a concrete Reserva logo (100 x 50 pixels). -/
theorem claim_C8_witness :
    (logoGeometry Brand.Reserva 100 50).w ≤ logo_max_width ∧
    (Brand.Reserva ≠ Brand.Reserva →
      (logoGeometry Brand.Reserva 100 50).h ≤ logo_max_height) ∧
    (logoGeometry Brand.Reserva 100 50).w * 50 =
      (logoGeometry Brand.Reserva 100 50).h * 100 ∧
    2 * (logoGeometry Brand.Reserva 100 50).x +
      (logoGeometry Brand.Reserva 100 50).w = labelWidth :=
  claim_C8 Brand.Reserva 100 50 (by norm_num) (by norm_num)

end Carelabel
